import Mathlib

/-!
Verification of the editing core of the rut terminal text editor.

The buffer (src/buffer.rs) wraps a ropey rope; we embed its character
sequence as a plain list of characters.  Fallible rope operations
(those that panic in ropey for out-of-range arguments) are embedded as
Option-returning functions where Option.none models the panic.
-/

namespace Rut

/-- Rust's char::is_whitespace: the Unicode White_Space property
(U+0009..U+000D, U+0020, U+0085, U+00A0, U+1680, U+2000..U+200A,
U+2028, U+2029, U+202F, U+205F, U+3000). -/
def isRustWhitespace (c : Char) : Bool :=
  let n := c.toNat
  (0x09 ≤ n && n ≤ 0x0D) || n == 0x20 || n == 0x85 || n == 0xA0 ||
    n == 0x1680 || (0x2000 ≤ n && n ≤ 0x200A) || n == 0x2028 ||
    n == 0x2029 || n == 0x202F || n == 0x205F || n == 0x3000

/-- Negation of isRustWhitespace, as a Boolean predicate. -/
def nonWhitespace (c : Char) : Bool := ! isRustWhitespace c

/-- Predicate for characters other than the newline character. -/
def notNewline (c : Char) : Bool := ! (c == '\n')

/-- The buffer contents: the rope's character sequence in document order. -/
abbrev Buffer := List Char

/-- Buffer::size (src/buffer.rs:186-188): rope.len_chars(), the number of
characters in the buffer. -/
def size (b : Buffer) : Nat := b.length

/-- Buffer::insert (src/buffer.rs:48-50): rope.insert_char(index, c).
ropey's Rope::insert_char panics when index > len_chars (modelled as none);
otherwise the character is inserted before position index. -/
def insert (b : Buffer) (index : Nat) (c : Char) : Option Buffer :=
  if index ≤ b.length then some (b.take index ++ c :: b.drop index) else none

/-- Buffer::delete (src/buffer.rs:53-55): rope.remove(start..stop).
ropey's Rope::remove panics when start > stop or stop > len_chars
(modelled as none); otherwise it removes the characters in [start, stop). -/
def delete (b : Buffer) (start stop : Nat) : Option Buffer :=
  if start ≤ stop ∧ stop ≤ b.length then some (b.take start ++ b.drop stop)
  else none

/-- The loop of Buffer::cursor_coord (src/buffer.rs:64-82): iterate over
the characters with counter i starting from the given state; when the
counter reaches the target index return (i - current_line_start, current_line),
each component cast to u16 (reduction mod 2^16); a newline bumps
current_line and sets current_line_start to i + 1.  When the characters
are exhausted, return (index - current_line_start, current_line). -/
def cursorCoordAux (index : Nat) :
    List Char → Nat → Nat → Nat → Option (Nat × Nat)
  | [], _i, line, lineStart =>
      some ((index - lineStart) % 65536, line % 65536)
  | c :: cs, i, line, lineStart =>
      if i = index then some ((i - lineStart) % 65536, line % 65536)
      else if c = '\n' then cursorCoordAux index cs (i + 1) (line + 1) (i + 1)
      else cursorCoordAux index cs (i + 1) line lineStart

/-- Buffer::cursor_coord (src/buffer.rs:58-83): None when index > size,
otherwise scan from the start of the buffer. -/
def cursor_coord (b : Buffer) (index : Nat) : Option (Nat × Nat) :=
  if index > b.length then none
  else cursorCoordAux index b 0 0 0

/-- Specification row: the number of newline characters strictly before
the index. -/
def rowSpec (b : Buffer) (i : Nat) : Nat :=
  ((b.take i).filter (fun c => c == '\n')).length

/-- Specification column: the index minus the position immediately after
the most recent newline before it (the index itself when there is none),
i.e. the length of the run of non-newline characters immediately
preceding the index. -/
def colSpec (b : Buffer) (i : Nat) : Nat :=
  ((b.take i).reverse.takeWhile notNewline).length

/-- The loop of Buffer::start_of_word (src/buffer.rs:101-129): iterate over
the characters before the index in reverse order with counter i starting
at 0; state skip records the skipping_whitespace flag.  Branches in
source order: (1) at i = 0 a whitespace character turns skipping on;
(2) in skipping mode a non-whitespace character turns it off; (3) when
the scan has reached the first character of the buffer the result is 0;
(4) out of skipping mode a whitespace character yields index - i; else
continue.  If the loop finishes without breaking the result is the
original index. -/
def startOfWordLoop (index : Nat) : List Char → Nat → Bool → Nat
  | [], _i, _skip => index
  | c :: cs, i, skip =>
      if i = 0 ∧ isRustWhitespace c = true then
        startOfWordLoop index cs (i + 1) true
      else if skip = true ∧ isRustWhitespace c = false then
        startOfWordLoop index cs (i + 1) false
      else if index - (i + 1) = 0 then 0
      else if skip = false ∧ isRustWhitespace c = true then index - i
      else startOfWordLoop index cs (i + 1) skip

/-- Buffer::start_of_word (src/buffer.rs:86-132): 0 when index = 0,
otherwise run the backward scan over the reversed prefix of the buffer
before the index.  (The rope slice rope.slice(..index) requires
index ≤ size; the embedding is faithful for index ≤ size.) -/
def start_of_word (b : Buffer) (index : Nat) : Nat :=
  if index = 0 then 0
  else startOfWordLoop index ((b.take index).reverse) 0 false

/-- The loop of Buffer::end_of_word (src/buffer.rs:141-165): iterate over
the characters from the index on with counter i starting at the index;
state skip records the skipping_whitespace flag.  Branches in source
order: (1) at i = index a whitespace character turns skipping on; (2) in
skipping mode a non-whitespace character turns it off; (3) out of
skipping mode a whitespace character yields i; else continue.  If the
loop finishes without breaking the result is the original index. -/
def endOfWordLoop (index : Nat) : List Char → Nat → Bool → Nat
  | [], _i, _skip => index
  | c :: cs, i, skip =>
      if i = index ∧ isRustWhitespace c = true then
        endOfWordLoop index cs (i + 1) true
      else if skip = true ∧ isRustWhitespace c = false then
        endOfWordLoop index cs (i + 1) false
      else if skip = false ∧ isRustWhitespace c = true then i
      else endOfWordLoop index cs (i + 1) skip

/-- Buffer::end_of_word (src/buffer.rs:135-166): the index itself when
index > size, otherwise run the forward scan from the index. -/
def end_of_word (b : Buffer) (index : Nat) : Nat :=
  if index > b.length then index
  else endOfWordLoop index (b.drop index) index false

/-- Closed-form description of end_of_word used for the amended claim:
let k be the length of the whitespace run at the index (0 when the
character there is not whitespace) and w the length of the
non-whitespace run that follows it; the first whitespace character after
that word sits at index + k + w; it is returned when it lies inside the
buffer, and otherwise the scan ran off the end of the buffer and the
original index is returned.  Indices at or beyond the end of the buffer
are returned unchanged. -/
def endOfWordSpec (b : Buffer) (index : Nat) : Nat :=
  if b.length ≤ index then index
  else if index + ((b.drop index).takeWhile isRustWhitespace).length +
        (((b.drop index).drop
            (((b.drop index).takeWhile isRustWhitespace).length)).takeWhile
          nonWhitespace).length < b.length
  then index + ((b.drop index).takeWhile isRustWhitespace).length +
        (((b.drop index).drop
            (((b.drop index).takeWhile isRustWhitespace).length)).takeWhile
          nonWhitespace).length
  else index

/-- Closed-form description of start_of_word used for the amended claim,
over the reversed prefix r of the buffer before the index: k is the
length of the whitespace run immediately before the index (0 when the
character there is not whitespace) and w the length of the
non-whitespace run before that.  If the whitespace run covers the whole
prefix the result is 0, except that for index = 1 the loop ends in the
skip step and returns the index; if the character ending the whitespace
run is the first character of the buffer the loop ends in the skip step
and returns the index; otherwise the word start index - (k + w) is
returned when the character before it is a whitespace character other
than the first character of the buffer, and 0 when the backward scan
reaches the first character of the buffer. -/
def startOfWordSpec (b : Buffer) (index : Nat) : Nat :=
  if index = 0 then 0
  else if (((b.take index).reverse.takeWhile isRustWhitespace).length) = index
  then (if index = 1 then 1 else 0)
  else if 0 < (((b.take index).reverse.takeWhile isRustWhitespace).length) ∧
      (((b.take index).reverse.takeWhile isRustWhitespace).length) + 1 = index
  then index
  else if (((b.take index).reverse.takeWhile isRustWhitespace).length) +
      ((((b.take index).reverse.drop
          (((b.take index).reverse.takeWhile isRustWhitespace).length)).takeWhile
        nonWhitespace).length) + 1 < index
  then index - ((((b.take index).reverse.takeWhile isRustWhitespace).length) +
      ((((b.take index).reverse.drop
          (((b.take index).reverse.takeWhile isRustWhitespace).length)).takeWhile
        nonWhitespace).length))
  else 0

/-- DeletionMode (src/buffer.rs:17-21). -/
inductive DeletionMode
  | Delete
  | Backspace
deriving DecidableEq

/-- The state of the editor relevant to editing commands
(src/editor.rs:17-21): the buffer and the cursor.  The cursor
(referenced from editor.rs but absent from this snapshot of the source)
is modelled from the spec: its canonical state is the buffer index; the
screen coordinate is derived from it via cursor_coord and never
independently mutated. -/
structure EditorState where
  buffer : Buffer
  cursorIndex : Nat
deriving DecidableEq

/-- Modelled from the spec: Cursor.move_left (the Cursor implementation
referenced by editor.rs is not part of this source snapshot) decrements
buffer_index by 1, clamped to [0, size]; the derived coordinate is
recomputed from the new index. -/
def cursorMoveLeft (i : Nat) : Nat := i - 1

/-- Editor::remove_char (src/editor.rs:163-192): a backspace at buffer
index 0 returns immediately; otherwise the target index is the cursor
index, minus one for a backspace; that single character is deleted from
the buffer (none when the underlying rope removal panics), and for a
backspace the cursor then moves one position left. -/
def remove_char (e : EditorState) (mode : DeletionMode) : Option EditorState :=
  if e.cursorIndex = 0 ∧ mode = DeletionMode.Backspace then some e
  else
    let idx := if mode = DeletionMode.Backspace then e.cursorIndex - 1
               else e.cursorIndex
    match delete e.buffer idx (idx + 1) with
    | none => none
    | some b2 =>
        some { buffer := b2,
               cursorIndex :=
                 if mode = DeletionMode.Backspace then
                   cursorMoveLeft e.cursorIndex
                 else e.cursorIndex }

/-- Helper: an in-bounds empty range deletes nothing, any other empty or
out-of-bounds configuration panics. -/
theorem delete_characterization (b : Buffer) (i j : Nat) :
    (i = j ∧ j ≤ b.length → delete b i j = some b) ∧
    (j < i ∨ b.length < j → delete b i j = none) := by
  constructor
  · rintro ⟨rfl, hle⟩
    simp [delete, hle]
  · intro h
    have hng : ¬ (i ≤ j ∧ j ≤ b.length) := by omega
    simp only [delete, if_neg hng]

/-- C2 counterexample: deleting the out-of-bounds range 0..2 from the
one-character buffer "a" makes the underlying rope removal panic
(modelled as none); the buffer is not left unchanged without a panic as
the claim states. -/
theorem delete_oob_cex :
    delete ['a'] 0 2 = none ∧ delete ['a'] 0 2 ≠ some ['a'] := by decide

/-- C2 (amended): deleting an empty in-bounds range is a no-op, while a
range whose end exceeds the buffer bounds, or whose start exceeds its
end, panics. -/
theorem delete_empty_noop_oob_panics (b : Buffer) (i j : Nat) :
    (i = j ∧ j ≤ b.length → delete b i j = some b) ∧
    (j < i ∨ b.length < j → delete b i j = none) :=
  delete_characterization b i j

/-- C2 witness: the amended claim at concrete inputs. -/
theorem delete_empty_noop_oob_panics_witness :
    delete ['a', 'b'] 2 2 = some ['a', 'b'] ∧ delete ['a', 'b'] 2 1 = none :=
  ⟨(delete_empty_noop_oob_panics ['a', 'b'] 2 2).1 ⟨rfl, by decide⟩,
   (delete_empty_noop_oob_panics ['a', 'b'] 2 1).2 (Or.inl (by decide))⟩

/-- C6 counterexample: cursor_coord on the buffer "x" at the
out-of-range index 2 returns the ordinary value None; the function has
no assertion and does not fail loudly. -/
theorem cursor_coord_oob_cex : cursor_coord ['x'] 2 = none := by decide

/-- C6 (amended): cursor_coord called with an index strictly greater
than the buffer size returns None instead of a coordinate. -/
theorem cursor_coord_oob_none (b : Buffer) (i : Nat) (h : b.length < i) :
    cursor_coord b i = none := by
  simp only [cursor_coord, gt_iff_lt, if_pos h]

/-- C6 witness: the amended claim on the empty buffer at index 1. -/
theorem cursor_coord_oob_none_witness : cursor_coord [] 1 = none :=
  cursor_coord_oob_none [] 1 (by decide)

/-- C7: inserting character c at a valid index i and then deleting the
range i..i+1 restores the buffer to its pre-insert content. -/
theorem insert_delete_roundtrip (b : Buffer) (i : Nat) (c : Char)
    (h : i ≤ b.length) :
    (insert b i c).bind (fun b2 => delete b2 i (i + 1)) = some b := by
  rw [insert, if_pos h]
  show delete (b.take i ++ c :: b.drop i) i (i + 1) = some b
  have hti : (b.take i).length = i := by
    simp [List.length_take]
    omega
  have hlen : (b.take i ++ c :: b.drop i).length = b.length + 1 := by
    simp [List.length_take, List.length_drop]
    omega
  rw [delete, if_pos ⟨by omega, by rw [hlen]; omega⟩]
  have hsplit : b.take i ++ c :: b.drop i = (b.take i ++ [c]) ++ b.drop i := by
    simp
  have htake : (b.take i ++ c :: b.drop i).take i = b.take i :=
    List.take_left' hti
  have hdrop : (b.take i ++ c :: b.drop i).drop (i + 1) = b.drop i := by
    rw [hsplit]
    exact List.drop_left' (by simp [hti])
  rw [htake, hdrop, List.take_append_drop]

/-- C7 witness: the round trip on the buffer "a" at index 1 with
character b. -/
theorem insert_delete_roundtrip_witness :
    (insert ['a'] 1 'b').bind (fun b2 => delete b2 1 2) = some ['a'] :=
  insert_delete_roundtrip ['a'] 1 'b' (by decide)

/-- C8: a backspace-mode deletion with the cursor at buffer index 0
returns immediately; buffer content and cursor position are unchanged. -/
theorem backspace_at_zero_noop (e : EditorState)
    (h : e.cursorIndex = 0) :
    remove_char e DeletionMode.Backspace = some e := by
  simp [remove_char, h]

/-- C8 witness: backspace at index 0 on the buffer "a". -/
theorem backspace_at_zero_noop_witness :
    remove_char ⟨['a'], 0⟩ DeletionMode.Backspace = some ⟨['a'], 0⟩ :=
  backspace_at_zero_noop ⟨['a'], 0⟩ rfl

/-- C5 counterexample: on the buffer "  foo  " the claimed pair of
results does not hold, because end_of_word(0) evaluates to 5 (the index
of the first whitespace character after the word "foo"), not 4. -/
theorem word_scan_foo_cex :
    ¬ (start_of_word [' ', ' ', 'f', 'o', 'o', ' ', ' '] 7 = 2 ∧
       end_of_word [' ', ' ', 'f', 'o', 'o', ' ', ' '] 0 = 4) := by decide

/-- C5 (amended): on the buffer "  foo  ", start_of_word(7) returns 2
and end_of_word(0) returns 5. -/
theorem word_scan_foo :
    start_of_word [' ', ' ', 'f', 'o', 'o', ' ', ' '] 7 = 2 ∧
    end_of_word [' ', ' ', 'f', 'o', 'o', ' ', ' '] 0 = 5 := by decide

/-- C3 counterexample: on the buffer "ab" at index 0 the forward scan
reaches the end of the buffer without finding a whitespace character and
end_of_word returns the original index 0, not the buffer size 2 as the
claim states. -/
theorem end_of_word_no_ws_cex :
    end_of_word ['a', 'b'] 0 ≠ size ['a', 'b'] ∧
    end_of_word ['a', 'b'] 0 = 0 := by decide

/-- C4 counterexample: on the single-space buffer " " at index 1 the
character immediately before the index is whitespace and the backward
scan reaches the start of the buffer, so the claim demands result 0, but
start_of_word returns the original index 1 (the loop ends inside the
whitespace-skipping step). -/
theorem start_of_word_ws_cex :
    start_of_word [' '] 1 ≠ 0 ∧ start_of_word [' '] 1 = 1 := by decide

/-- Helper: the length of takeWhile on a list extended by one element. -/
theorem length_takeWhile_concat (p : Char → Bool) (l : List Char) (c : Char) :
    ((l ++ [c]).takeWhile p).length =
      if l.all p then (if p c then l.length + 1 else l.length)
      else (l.takeWhile p).length := by
  induction l with
  | nil => cases hc : p c <;> simp [List.takeWhile_cons, hc]
  | cons a l ih =>
      cases ha : p a
      · simp [List.takeWhile_cons_of_neg, ha]
      · cases hall : l.all p <;> cases hc : p c <;>
          simp [List.takeWhile_cons_of_pos, ha, hall, hc, ih]

/-- Helper: takeWhile keeps a list all of whose elements satisfy the
predicate. -/
theorem takeWhile_eq_self_of_all (p : Char → Bool) :
    ∀ l : List Char, l.all p = true → l.takeWhile p = l
  | [], _ => rfl
  | a :: l, h => by
      simp only [List.all_cons, Bool.and_eq_true] at h
      simp [List.takeWhile_cons_of_pos h.1, takeWhile_eq_self_of_all p l h.2]

/-- Helper: invariant of the cursor_coord loop.  Starting the loop on a
remaining character list cs with counter i, aiming at offset j inside
cs, from accumulated line count line and line start lineStart, it
returns the column (i + j - lineStart when no newline occurs in the
first j characters of cs, the non-newline run length before the offset
otherwise) and the row line plus the newline count before the offset,
both reduced mod 2^16 by the u16 casts. -/
theorem cursorCoordAux_spec :
    ∀ (cs : List Char) (j i line lineStart : Nat), j ≤ cs.length →
      cursorCoordAux (i + j) cs i line lineStart =
        some ((if (cs.take j).all notNewline then i + j - lineStart
               else colSpec cs j) % 65536,
              (line + rowSpec cs j) % 65536)
  | [], j, i, line, lineStart, hj => by
      have hj0 : j = 0 := by simpa using hj
      subst hj0
      simp [cursorCoordAux, colSpec, rowSpec]
  | c :: cs, 0, i, line, lineStart, _hj => by
      simp [cursorCoordAux, colSpec, rowSpec]
  | c :: cs, j + 1, i, line, lineStart, hj => by
      have hne : ¬ (i = i + (j + 1)) := by omega
      have hj' : j ≤ cs.length := by simpa using hj
      have hlen : (cs.take j).length = j := by
        simp [List.length_take]
        omega
      by_cases hc : c = '\n'
      · subst hc
        have hstep :
            cursorCoordAux (i + (j + 1)) ('\n' :: cs) i line lineStart =
              cursorCoordAux (i + (j + 1)) cs (i + 1) (line + 1) (i + 1) := by
          simp [cursorCoordAux, hne]
        rw [hstep, show i + (j + 1) = (i + 1) + j from by omega,
          cursorCoordAux_spec cs j (i + 1) (line + 1) (i + 1) hj']
        have hall : ((('\n' : Char) :: cs).take (j + 1)).all notNewline = false := by
          simp [List.take_succ_cons, List.all_cons, notNewline]
        have hcol : colSpec ('\n' :: cs) (j + 1) =
            if (cs.take j).all notNewline then j else colSpec cs j := by
          unfold colSpec
          rw [List.take_succ_cons, List.reverse_cons, length_takeWhile_concat,
            List.all_reverse]
          by_cases h2 : (cs.take j).all notNewline
          · simp [h2, notNewline, List.length_reverse, hlen]
          · simp [h2]
        have hrow : rowSpec ('\n' :: cs) (j + 1) = rowSpec cs j + 1 := by
          unfold rowSpec
          rw [List.take_succ_cons, List.filter_cons]
          simp
        rw [hall, hcol, hrow]
        have e2 : line + 1 + rowSpec cs j = line + (rowSpec cs j + 1) := by omega
        by_cases h2 : (cs.take j).all notNewline
        · have e1 : i + 1 + j - (i + 1) = j := by omega
          simp [h2, e1, e2]
        · simp [h2, e2]
      · have hnl : notNewline c = true := by
          simp [notNewline, hc]
        have hstep :
            cursorCoordAux (i + (j + 1)) (c :: cs) i line lineStart =
              cursorCoordAux (i + (j + 1)) cs (i + 1) line lineStart := by
          simp [cursorCoordAux, hne, hc]
        rw [hstep, show i + (j + 1) = (i + 1) + j from by omega,
          cursorCoordAux_spec cs j (i + 1) line lineStart hj']
        have hall : ((c :: cs).take (j + 1)).all notNewline =
            (cs.take j).all notNewline := by
          simp [List.take_succ_cons, List.all_cons, hnl]
        have hcol : colSpec (c :: cs) (j + 1) =
            if (cs.take j).all notNewline then j + 1 else colSpec cs j := by
          unfold colSpec
          rw [List.take_succ_cons, List.reverse_cons, length_takeWhile_concat,
            List.all_reverse]
          by_cases h2 : (cs.take j).all notNewline
          · simp [h2, hnl, List.length_reverse, hlen]
          · simp [h2]
        have hrow : rowSpec (c :: cs) (j + 1) = rowSpec cs j := by
          unfold rowSpec
          rw [List.take_succ_cons, List.filter_cons]
          simp [hc]
        rw [hall, hcol, hrow]
        by_cases h2 : (cs.take j).all notNewline
        · have e1 : i + 1 + j - lineStart = i + (j + 1) - lineStart := by omega
          simp [h2, e1]
        · simp [h2]

/-- Helper: for every index within the buffer, cursor_coord returns the
specification column and row, each reduced mod 2^16 by the u16 casts. -/
theorem cursor_coord_mod_spec (b : Buffer) (i : Nat) (h : i ≤ b.length) :
    cursor_coord b i = some (colSpec b i % 65536, rowSpec b i % 65536) := by
  have hg : ¬ (i > b.length) := by omega
  rw [cursor_coord, if_neg hg]
  have := cursorCoordAux_spec b i 0 0 0 h
  rw [show (0 : Nat) + i = i from by omega] at this
  rw [this]
  by_cases hall : (b.take i).all notNewline
  · have hcol : colSpec b i = i := by
      unfold colSpec
      rw [takeWhile_eq_self_of_all notNewline _ (by rw [List.all_reverse]; exact hall)]
      rw [List.length_reverse]
      simp [List.length_take]
      omega
    simp [hall, hcol]
  · simp [hall]

/-- Helper: the specification column of the all-letter buffer at its
end is the whole buffer length. -/
theorem colSpec_replicate (n : Nat) : colSpec (List.replicate n 'a') n = n := by
  have ha : notNewline 'a' = true := by decide
  unfold colSpec
  rw [List.take_replicate]
  simp [List.reverse_replicate, List.takeWhile_replicate, ha]

/-- Helper: the specification row of the all-letter buffer at its end
is 0. -/
theorem rowSpec_replicate (n : Nat) : rowSpec (List.replicate n 'a') n = 0 := by
  have ha : (('a' : Char) == '\n') = false := by decide
  unfold rowSpec
  rw [List.take_replicate]
  simp [List.filter_replicate, ha]

/-- C1 counterexample: on the buffer of 65536 letters a, the coordinate
of index 65536 has true column 65536 (and row 0), but cursor_coord
returns some (0, 0): the u16 cast truncates the column, so the claimed
pair (col, row) is not returned. -/
theorem cursor_coord_trunc_cex :
    cursor_coord (List.replicate 65536 'a') 65536 = some (0, 0) ∧
    colSpec (List.replicate 65536 'a') 65536 = 65536 ∧
    cursor_coord (List.replicate 65536 'a') 65536 ≠
      some (colSpec (List.replicate 65536 'a') 65536,
            rowSpec (List.replicate 65536 'a') 65536) := by
  have hlen : (List.replicate 65536 'a').length = 65536 :=
    List.length_replicate _ _
  have hcol := colSpec_replicate 65536
  have hrow := rowSpec_replicate 65536
  have h := cursor_coord_mod_spec (List.replicate 65536 'a') 65536 hlen.ge
  rw [hcol, hrow] at h
  norm_num at h
  refine ⟨h, hcol, ?_⟩
  rw [h, hcol, hrow]
  decide

/-- C1 (amended): for every buffer and every index in [0, size],
cursor_coord returns the pair (col mod 2^16, row mod 2^16), where row is
the number of newline characters strictly before the index and col is
the index minus the position immediately after the most recent newline
before it (the index itself when there is none); the u16 casts reduce
both components mod 2^16. -/
theorem cursor_coord_spec_mod (b : Buffer) (i : Nat) (h : i ≤ b.length) :
    cursor_coord b i = some (colSpec b i % 65536, rowSpec b i % 65536) :=
  cursor_coord_mod_spec b i h

/-- C1 witness: the amended claim on the buffer with a newline, at its
end. -/
theorem cursor_coord_spec_mod_witness :
    cursor_coord ['a', '\n', 'b'] 3 = some (1, 1) := by
  have h := cursor_coord_spec_mod ['a', '\n', 'b'] 3 (by decide)
  rw [h]
  decide

/-- C10: for every buffer and index in [0, size] whose true column or
row is at least 2^16, cursor_coord returns the components reduced mod
2^16 (the usize values are cast to u16), and the returned coordinate is
not the true coordinate. -/
theorem cursor_coord_truncates (b : Buffer) (i : Nat) (h : i ≤ b.length)
    (hbig : 65536 ≤ colSpec b i ∨ 65536 ≤ rowSpec b i) :
    cursor_coord b i = some (colSpec b i % 65536, rowSpec b i % 65536) ∧
    cursor_coord b i ≠ some (colSpec b i, rowSpec b i) := by
  have hm := cursor_coord_mod_spec b i h
  refine ⟨hm, ?_⟩
  rw [hm]
  intro hcontra
  have hpair := Option.some.inj hcontra
  have h1 : colSpec b i % 65536 = colSpec b i := congrArg Prod.fst hpair
  have h2 : rowSpec b i % 65536 = rowSpec b i := congrArg Prod.snd hpair
  have m1 : colSpec b i % 65536 < 65536 := Nat.mod_lt _ (by omega)
  have m2 : rowSpec b i % 65536 < 65536 := Nat.mod_lt _ (by omega)
  omega

/-- C10 witness: on the buffer of 65537 letters a at index 65537 the
true column is 65537, and cursor_coord returns column 1 = 65537 mod
2^16, which differs from the true coordinate. -/
theorem cursor_coord_truncates_witness :
    cursor_coord (List.replicate 65537 'a') 65537 = some (1, 0) ∧
    cursor_coord (List.replicate 65537 'a') 65537 ≠ some (65537, 0) := by
  have hlen : (List.replicate 65537 'a').length = 65537 :=
    List.length_replicate _ _
  have hcol := colSpec_replicate 65537
  have hrow := rowSpec_replicate 65537
  have h := cursor_coord_truncates (List.replicate 65537 'a') 65537 hlen.ge
    (Or.inl (by rw [hcol]; norm_num))
  rw [hcol, hrow] at h
  obtain ⟨h1, h2⟩ := h
  refine ⟨?_, h2⟩
  rw [h1]

/-- Helper: takeWhile never keeps more elements than the list has. -/
theorem length_takeWhile_le (p : Char → Bool) :
    ∀ l : List Char, (l.takeWhile p).length ≤ l.length
  | [] => Nat.le_refl 0
  | a :: l => by
      cases ha : p a
      · simp [List.takeWhile_cons_of_neg, ha]
      · simp only [List.takeWhile_cons_of_pos ha, List.length_cons]
        exact Nat.succ_le_succ (length_takeWhile_le p l)

/-- Helper: scanning phase of the end_of_word loop, skipping off, counter
strictly past the index: the result is the position of the first
whitespace character of the remaining list when there is one, the
original index otherwise. -/
theorem endOfWordLoop_scan (index : Nat) :
    ∀ (l : List Char) (i : Nat), index < i →
      endOfWordLoop index l i false =
        if (l.takeWhile nonWhitespace).length < l.length
        then i + (l.takeWhile nonWhitespace).length
        else index
  | [], i, _hi => by simp [endOfWordLoop]
  | c :: cs, i, hi => by
      have hne : ¬ (i = index) := by omega
      cases hws : isRustWhitespace c
      · have hnw : nonWhitespace c = true := by simp [nonWhitespace, hws]
        rw [show endOfWordLoop index (c :: cs) i false =
              endOfWordLoop index cs (i + 1) false from by
            simp [endOfWordLoop, hne, hws]]
        rw [endOfWordLoop_scan index cs (i + 1) (by omega)]
        rw [List.takeWhile_cons_of_pos hnw]
        simp only [List.length_cons]
        by_cases h2 : (cs.takeWhile nonWhitespace).length < cs.length
        · rw [if_pos h2, if_pos (by omega)]
          omega
        · rw [if_neg h2, if_neg (by omega)]
      · have hnw : nonWhitespace c = false := by simp [nonWhitespace, hws]
        rw [show endOfWordLoop index (c :: cs) i false = i from by
            simp [endOfWordLoop, hne, hws]]
        rw [List.takeWhile_cons_of_neg (by simp [hnw])]
        simp

/-- Helper: whitespace-skipping phase of the end_of_word loop, counter
strictly past the index: skip the whitespace run, then scan the
non-whitespace run; the result is the position of the whitespace
character after that word when it exists, the original index
otherwise. -/
theorem endOfWordLoop_skip (index : Nat) :
    ∀ (l : List Char) (i : Nat), index < i →
      endOfWordLoop index l i true =
        if ((l.drop ((l.takeWhile isRustWhitespace).length)).takeWhile
              nonWhitespace).length <
            (l.drop ((l.takeWhile isRustWhitespace).length)).length
        then i + (l.takeWhile isRustWhitespace).length +
          ((l.drop ((l.takeWhile isRustWhitespace).length)).takeWhile
            nonWhitespace).length
        else index
  | [], i, _hi => by simp [endOfWordLoop]
  | c :: cs, i, hi => by
      have hne : ¬ (i = index) := by omega
      cases hws : isRustWhitespace c
      · have hnw : nonWhitespace c = true := by simp [nonWhitespace, hws]
        rw [show endOfWordLoop index (c :: cs) i true =
              endOfWordLoop index cs (i + 1) false from by
            simp [endOfWordLoop, hne, hws]]
        rw [endOfWordLoop_scan index cs (i + 1) (by omega)]
        rw [List.takeWhile_cons_of_neg (by simp [hws]), List.length_nil,
          List.drop_zero, List.takeWhile_cons_of_pos hnw]
        simp only [List.length_cons]
        by_cases h2 : (cs.takeWhile nonWhitespace).length < cs.length
        · rw [if_pos h2, if_pos (by omega)]
          omega
        · rw [if_neg h2, if_neg (by omega)]
      · rw [show endOfWordLoop index (c :: cs) i true =
              endOfWordLoop index cs (i + 1) true from by
            simp [endOfWordLoop, hne, hws]]
        rw [endOfWordLoop_skip index cs (i + 1) (by omega)]
        rw [List.takeWhile_cons_of_pos hws]
        simp only [List.length_cons, List.drop_succ_cons]
        by_cases h2 : ((cs.drop ((cs.takeWhile isRustWhitespace).length)).takeWhile
            nonWhitespace).length <
            (cs.drop ((cs.takeWhile isRustWhitespace).length)).length
        · rw [if_pos h2, if_pos h2]
          omega
        · rw [if_neg h2, if_neg h2]

/-- C3 (amended): end_of_word performs the forward scan of the claim,
but when the scan reaches the end of the buffer without finding a
whitespace character after the word it returns the original index
unchanged (the local variable end_of_word is initialized to index and
never reassigned when the loop finishes without a break), not the buffer
size; indices at or beyond the buffer size are returned unchanged. -/
theorem end_of_word_eq_spec (b : Buffer) (index : Nat) :
    end_of_word b index = endOfWordSpec b index := by
  by_cases hge : b.length ≤ index
  · rw [endOfWordSpec, if_pos hge, end_of_word]
    by_cases hgt : index > b.length
    · rw [if_pos hgt]
    · rw [if_neg hgt]
      have hnil : b.drop index = [] := List.drop_eq_nil_of_le hge
      rw [hnil]
      rfl
  · have hlt : index < b.length := by omega
    rw [end_of_word, if_neg (by omega), endOfWordSpec, if_neg hge]
    cases hd : b.drop index with
    | nil =>
        exact absurd (List.drop_eq_nil_iff_le.mp hd) (by omega)
    | cons c rest =>
        have hrl : rest.length + 1 = b.length - index := by
          have := List.length_drop index b
          rw [hd] at this
          simp at this
          omega
        cases hws : isRustWhitespace c
        · have hnw : nonWhitespace c = true := by simp [nonWhitespace, hws]
          rw [show endOfWordLoop index (c :: rest) index false =
                endOfWordLoop index rest (index + 1) false from by
              simp [endOfWordLoop, hws]]
          rw [endOfWordLoop_scan index rest (index + 1) (by omega)]
          rw [List.takeWhile_cons_of_neg (by simp [hws]), List.length_nil,
            List.drop_zero, List.takeWhile_cons_of_pos hnw]
          simp only [List.length_cons]
          by_cases h2 : (rest.takeWhile nonWhitespace).length < rest.length
          · rw [if_pos h2, if_pos (by omega)]
            omega
          · rw [if_neg h2, if_neg (by omega)]
        · rw [show endOfWordLoop index (c :: rest) index false =
                endOfWordLoop index rest (index + 1) true from by
              simp [endOfWordLoop, hws]]
          rw [endOfWordLoop_skip index rest (index + 1) (by omega)]
          rw [List.takeWhile_cons_of_pos hws]
          simp only [List.length_cons, List.drop_succ_cons]
          have hk := length_takeWhile_le isRustWhitespace rest
          have hdl := List.length_drop ((rest.takeWhile isRustWhitespace).length) rest
          by_cases h2 : ((rest.drop ((rest.takeWhile isRustWhitespace).length)).takeWhile
              nonWhitespace).length <
              (rest.drop ((rest.takeWhile isRustWhitespace).length)).length
          · rw [if_pos h2, if_pos (by omega)]
            omega
          · rw [if_neg h2, if_neg (by omega)]

/-- Helper: when takeWhile does not exhaust the list, the element right
after the kept prefix fails the predicate. -/
theorem dropLenTakeWhile_cons (p : Char → Bool) :
    ∀ l : List Char, (l.takeWhile p).length < l.length →
      ∃ c, p c = false ∧
        l.drop ((l.takeWhile p).length) =
          c :: l.drop ((l.takeWhile p).length + 1)
  | [], h => absurd h (by simp)
  | a :: l, h => by
      cases ha : p a
      · refine ⟨a, ha, ?_⟩
        rw [List.takeWhile_cons_of_neg (by simp [ha])]
        simp
      · rw [List.takeWhile_cons_of_pos ha] at h ⊢
        simp only [List.length_cons] at h ⊢
        have h' : (l.takeWhile p).length < l.length := by omega
        obtain ⟨c, hc, heq⟩ := dropLenTakeWhile_cons p l h'
        exact ⟨c, hc, by simpa using heq⟩

/-- Helper: scanning phase of the start_of_word loop, skipping off, with
the counter at least 1 and the remaining characters reaching exactly to
the start of the buffer.  An empty remainder ends the loop with the
original index; otherwise the loop breaks with index - position at the
first whitespace character, unless only found at (or never before) the
buffer start position, which yields 0. -/
theorem startOfWordLoop_scan (index : Nat) :
    ∀ (l : List Char) (i : Nat), 1 ≤ i → i + l.length = index →
      startOfWordLoop index l i false =
        if l = [] then index
        else if (l.takeWhile nonWhitespace).length + 1 < l.length
        then index - (i + (l.takeWhile nonWhitespace).length)
        else 0
  | [], i, _hi, _hl => by simp [startOfWordLoop]
  | c :: cs, i, hi, hl => by
      have hne0 : ¬ (i = 0) := by omega
      have hl' : i + (cs.length + 1) = index := by simpa using hl
      by_cases hcs : cs = []
      · subst hcs
        have hb3 : index - (i + 1) = 0 := by simp at hl'; omega
        rw [show startOfWordLoop index [c] i false = 0 from by
            simp [startOfWordLoop, hne0, hb3]]
        rw [if_neg (List.cons_ne_nil c [])]
        rw [if_neg (by omega)]
      · have hcl : 0 < cs.length := List.length_pos.mpr hcs
        have hb3 : ¬ (index - (i + 1) = 0) := by omega
        cases hws : isRustWhitespace c
        · have hnw : nonWhitespace c = true := by simp [nonWhitespace, hws]
          rw [show startOfWordLoop index (c :: cs) i false =
                startOfWordLoop index cs (i + 1) false from by
              simp [startOfWordLoop, hne0, hb3, hws]]
          rw [startOfWordLoop_scan index cs (i + 1) (by omega) (by omega)]
          rw [if_neg hcs, if_neg (List.cons_ne_nil c cs)]
          rw [List.takeWhile_cons_of_pos hnw]
          simp only [List.length_cons]
          by_cases h2 : (cs.takeWhile nonWhitespace).length + 1 < cs.length
          · rw [if_pos h2, if_pos (by omega)]
            omega
          · rw [if_neg h2, if_neg (by omega)]
        · have hnw : nonWhitespace c = false := by simp [nonWhitespace, hws]
          rw [show startOfWordLoop index (c :: cs) i false = index - i from by
              simp [startOfWordLoop, hne0, hb3, hws]]
          rw [if_neg (List.cons_ne_nil c cs)]
          rw [List.takeWhile_cons_of_neg (by simp [hnw])]
          simp only [List.length_nil, List.length_cons]
          rw [if_pos (by omega)]
          omega

/-- Helper: whitespace-skipping phase of the start_of_word loop, counter
at least 1, remaining characters reaching exactly to the buffer start.
An empty remainder ends the loop with the original index; a remainder
that is whitespace throughout ends in the buffer-start break with 0;
otherwise the loop passes the whitespace run and its transition
character and resumes the ordinary backward scan. -/
theorem startOfWordLoop_skip (index : Nat) :
    ∀ (l : List Char) (i : Nat), 1 ≤ i → i + l.length = index →
      startOfWordLoop index l i true =
        if l = [] then index
        else if (l.takeWhile isRustWhitespace).length = l.length then 0
        else startOfWordLoop index
          (l.drop ((l.takeWhile isRustWhitespace).length + 1))
          (i + (l.takeWhile isRustWhitespace).length + 1) false
  | [], i, _hi, _hl => by simp [startOfWordLoop]
  | c :: cs, i, hi, hl => by
      have hne0 : ¬ (i = 0) := by omega
      have hl' : i + (cs.length + 1) = index := by simpa using hl
      cases hws : isRustWhitespace c
      · rw [show startOfWordLoop index (c :: cs) i true =
              startOfWordLoop index cs (i + 1) false from by
            simp [startOfWordLoop, hne0, hws]]
        rw [if_neg (List.cons_ne_nil c cs)]
        rw [List.takeWhile_cons_of_neg (by simp [hws])]
        simp only [List.length_nil, List.length_cons]
        rw [if_neg (by omega)]
        simp
      · by_cases hcs : cs = []
        · subst hcs
          have hb3 : index - (i + 1) = 0 := by simp at hl'; omega
          rw [show startOfWordLoop index [c] i true = 0 from by
              simp [startOfWordLoop, hne0, hws, hb3]]
          rw [if_neg (List.cons_ne_nil c [])]
          rw [if_pos (by rw [List.takeWhile_cons_of_pos hws]; simp)]
        · have hcl : 0 < cs.length := List.length_pos.mpr hcs
          have hb3 : ¬ (index - (i + 1) = 0) := by omega
          rw [show startOfWordLoop index (c :: cs) i true =
                startOfWordLoop index cs (i + 1) true from by
              simp [startOfWordLoop, hne0, hws, hb3]]
          rw [startOfWordLoop_skip index cs (i + 1) (by omega) (by omega)]
          rw [if_neg hcs, if_neg (List.cons_ne_nil c cs)]
          rw [List.takeWhile_cons_of_pos hws]
          simp only [List.length_cons, List.drop_succ_cons]
          by_cases h2 : (cs.takeWhile isRustWhitespace).length = cs.length
          · rw [if_pos h2, if_pos (by omega)]
          · rw [if_neg h2, if_neg (by omega)]
            have e1 : i + 1 + (cs.takeWhile isRustWhitespace).length + 1 =
                i + ((cs.takeWhile isRustWhitespace).length + 1) + 1 := by omega
            rw [e1]

/-- C4 (amended): start_of_word scans backward as the claim describes,
with these refinements forced by the loop structure: reaching the first
character of the buffer takes precedence over stopping at a whitespace
character there, and the scan returns the original index unchanged
instead of 0 when the loop ends inside a skip step on the buffer's first
character (when the whole prefix is whitespace and index = 1, and when
the character ending the skipped whitespace run is the buffer's first
character). -/
theorem start_of_word_eq_spec (b : Buffer) (index : Nat)
    (h : index ≤ b.length) :
    start_of_word b index = startOfWordSpec b index := by
  by_cases h0 : index = 0
  · subst h0
    rfl
  · rw [start_of_word, if_neg h0, startOfWordSpec, if_neg h0]
    obtain ⟨c, rs, hr⟩ : ∃ c rs, (b.take index).reverse = c :: rs := by
      cases hcase : (b.take index).reverse with
      | nil =>
          have : ((b.take index).reverse).length = index := by
            rw [List.length_reverse, List.length_take]
            omega
          rw [hcase] at this
          simp at this
          omega
      | cons c rs => exact ⟨c, rs, rfl⟩
    have hrs : rs.length + 1 = index := by
      have : ((b.take index).reverse).length = index := by
        rw [List.length_reverse, List.length_take]
        omega
      rw [hr] at this
      simpa using this
    rw [hr]
    cases hws : isRustWhitespace c
    · -- the character immediately before the index is not whitespace
      have hnw : nonWhitespace c = true := by simp [nonWhitespace, hws]
      rw [List.takeWhile_cons_of_neg (by simp [hws])]
      simp only [List.length_nil, List.drop_zero]
      rw [List.takeWhile_cons_of_pos hnw]
      simp only [List.length_cons]
      rw [if_neg (by omega), if_neg (by omega)]
      by_cases hnil : rs = []
      · subst hnil
        have h1 : index = 1 := by simp at hrs; omega
        have hb3 : index - (0 + 1) = 0 := by omega
        rw [show startOfWordLoop index [c] 0 false = 0 from by
            simp [startOfWordLoop, hws, hb3]]
        rw [if_neg (by simp [h1])]
      · have hcl : 0 < rs.length := List.length_pos.mpr hnil
        have hb3 : ¬ (index - (0 + 1) = 0) := by omega
        rw [show startOfWordLoop index (c :: rs) 0 false =
              startOfWordLoop index rs 1 false from by
            simp [startOfWordLoop, hws, hb3]]
        rw [startOfWordLoop_scan index rs 1 (Nat.le_refl 1) (by omega)]
        rw [if_neg hnil]
        by_cases h2 : (rs.takeWhile nonWhitespace).length + 1 < rs.length
        · rw [if_pos h2, if_pos (by omega)]
          omega
        · rw [if_neg h2, if_neg (by omega)]
    · -- the character immediately before the index is whitespace
      rw [show startOfWordLoop index (c :: rs) 0 false =
            startOfWordLoop index rs 1 true from by
          simp [startOfWordLoop, hws]]
      rw [startOfWordLoop_skip index rs 1 (Nat.le_refl 1) (by omega)]
      rw [List.takeWhile_cons_of_pos hws]
      simp only [List.length_cons, List.drop_succ_cons]
      by_cases hnil : rs = []
      · subst hnil
        have h1 : index = 1 := by simp at hrs; omega
        rw [if_pos rfl, if_pos (by simp [h1]), if_pos h1, h1]
      · by_cases hall : (rs.takeWhile isRustWhitespace).length = rs.length
        · rw [if_neg hnil, if_pos hall, if_pos (by omega)]
          rw [if_neg (by have := List.length_pos.mpr hnil; omega)]
        · have htwlt : (rs.takeWhile isRustWhitespace).length < rs.length :=
            Nat.lt_of_le_of_ne (length_takeWhile_le _ _) hall
          obtain ⟨d, hd, heq⟩ := dropLenTakeWhile_cons isRustWhitespace rs htwlt
          have hdnw : nonWhitespace d = true := by simp [nonWhitespace, hd]
          have hl'len : (rs.drop ((rs.takeWhile isRustWhitespace).length + 1)).length =
              rs.length - ((rs.takeWhile isRustWhitespace).length + 1) :=
            List.length_drop _ _
          rw [if_neg hnil, if_neg hall]
          rw [heq, List.takeWhile_cons_of_pos hdnw]
          simp only [List.length_cons]
          rw [show (1 : Nat) + (rs.takeWhile isRustWhitespace).length + 1 =
                (rs.takeWhile isRustWhitespace).length + 2 from by omega]
          rw [if_neg (by omega)]
          by_cases hl'nil : rs.drop ((rs.takeWhile isRustWhitespace).length + 1) = []
          · have hlen0 : rs.length = (rs.takeWhile isRustWhitespace).length + 1 := by
              rw [hl'nil] at hl'len
              simp at hl'len
              omega
            rw [startOfWordLoop_scan index
              (rs.drop ((rs.takeWhile isRustWhitespace).length + 1))
              ((rs.takeWhile isRustWhitespace).length + 2)
              (by omega) (by omega)]
            rw [if_pos hl'nil, if_pos (by omega)]
          · have hl'pos : 0 < (rs.drop ((rs.takeWhile isRustWhitespace).length + 1)).length :=
              List.length_pos.mpr hl'nil
            rw [startOfWordLoop_scan index
              (rs.drop ((rs.takeWhile isRustWhitespace).length + 1))
              ((rs.takeWhile isRustWhitespace).length + 2)
              (by omega) (by omega)]
            rw [if_neg hl'nil]
            by_cases h2 : ((rs.drop ((rs.takeWhile isRustWhitespace).length + 1)).takeWhile
                nonWhitespace).length + 1 <
                (rs.drop ((rs.takeWhile isRustWhitespace).length + 1)).length
            · rw [if_pos h2, if_neg (by omega), if_pos (by omega)]
              omega
            · rw [if_neg h2, if_neg (by omega), if_neg (by omega)]

/-- C4 witness: the amended description of the backward word scan on
the buffer "  foo  " at index 7. -/
theorem start_of_word_eq_spec_witness :
    start_of_word [' ', ' ', 'f', 'o', 'o', ' ', ' '] 7 =
      startOfWordSpec [' ', ' ', 'f', 'o', 'o', ' ', ' '] 7 :=
  start_of_word_eq_spec [' ', ' ', 'f', 'o', 'o', ' ', ' '] 7 (by decide)

end Rut
